import Mathlib

/-!
# Verification of the anon-survey credential core

Shallow embedding of the anonymous-survey scheme (`src/src/main.rs` plus the
authority/user module it consumes).

The elliptic-curve library (tbn) is an external collaborator: `G1`, `G2` and
`Gt` are cyclic groups of the same prime order `q` and the pairing
`e : G1 × G2 → Gt` is bilinear and non-degenerate.  We therefore embed every
group element by its discrete-log exponent with respect to the fixed base
points `G1::one()`, `G2::one()` and `e(G1::one(), G2::one())`: a `G1`/`G2`
element is a scalar, `Gt` (written multiplicatively in the code) is a scalar
written additively here, scalar multiplication becomes ring multiplication,
group addition becomes ring addition, and the pairing of exponents `a`, `b`
is the product `a * b`.  All development is generic over a commutative ring
`K` with decidable equality; `K = ZMod q` with `q` the BN group order is the
concrete instance.

Randomness is modelled by explicit inputs: sampled scalars and group elements
are parameters, and the thread-local generator is an explicit stream
`ℕ → K`.
-/

namespace AnonSurvey

variable {K : Type} [CommRing K] [DecidableEq K]

/-! ## Data model and operations -/

/-- Exponent form of the bilinear pairing `e : G1 × G2 → Gt`:
`e(a·P1, b·P2) = e(P1,P2)^(a·b)`. -/
def pairing (a b : K) : K := a * b

/-- `VerificationKey` of an authority: auxiliary `G1` elements `u`, `v`, `h`
and the pairing commitment `pk ∈ Gt` (all in exponent form). -/
structure VerificationKey (K : Type) where
  u : K
  v : K
  h : K
  pk : K
deriving DecidableEq

/-- `authorized` from `src/src/main.rs`: scan the signature list for the entry
whose stored identifier equals `id`; on the first match return the truth value
of `e(σ1, g2) == pk_SA · e(u_SA·vid + v_SA·id + h_RA, σ2)` (in exponent form
`Gt` multiplication is `+`); if no entry matches, return `false`. -/
def authorized (id vid : K) (Lvid : List (K × K × K))
    (vk_sa vk_ra : VerificationKey K) (g2 : K) : Bool :=
  match Lvid with
  | [] => false
  | (part_id, sigma_1, sigma_2) :: rest =>
    if part_id = id then
      decide (pairing sigma_1 g2 =
        vk_sa.pk + pairing (vk_sa.u * vid + vk_sa.v * id + vk_ra.h) sigma_2)
    else
      authorized id vid rest vk_sa vk_ra g2

/-- Modelled from the spec: authority key generation (§4.2), shared by RA and
SA, whose code lives in the `users` module that is not under `src/`.  Given
generators `(g, g2)`, a secret scalar `s` and the sampled auxiliary elements
`u, v, h`, the key pair is `(s, {u, v, h, pk = e(g,g2)^s})`.  Randomness is
passed in explicitly. -/
def gen_authority (g g2 s u v h : K) : K × VerificationKey K :=
  (s, ⟨u, v, h, pairing g g2 * s⟩)

/-- Errors of survey issuance (spec §7). -/
inductive SurveyError where
  | EmptyParticipantList
  | SamplingExhausted
deriving DecidableEq

/-- Modelled from the spec: `gen_survey` (§4.4), whose code lives in the
`users` module that is not under `src/`.  Randomness is passed in explicitly:
`vid` is the freshly sampled survey identifier and `r i` the fresh randomizer
of the `i`-th participant.  For each `id` the pair `(σ1, σ2)` is
`σ2 = g2^r` and `σ1` the unique `G1` element satisfying the verification
identity `e(σ1, g2) = pk_SA · e(u_SA·vid + v_SA·id + h_RA, σ2)`, namely
`σ1 = g^y · (u_SA·vid + v_SA·id + h_RA)^r` in multiplicative notation.
Fails with `EmptyParticipantList` on empty input; the explicit randomness
stream is always available, so `SamplingExhausted` does not arise. -/
def gen_survey (part_list : List K) (g g2 : K) (vk_ra : VerificationKey K)
    (y : K) (vk_sa : VerificationKey K) (vid : K) (r : ℕ → K) :
    Except SurveyError (K × List (K × K × K)) :=
  if part_list = [] then
    .error .EmptyParticipantList
  else
    .ok (vid, part_list.enum.map fun p =>
      (p.2, g * y + (vk_sa.u * vid + vk_sa.v * p.2 + vk_ra.h) * r p.1,
        g2 * r p.1))

/-- Modelled from the spec: the variant of `gen_survey` whose `σ1` follows the
formula the spec states parenthetically, `σ1 = g^{y·r} · (u_SA·vid + v_SA·id
+ h_RA)^r` (exponent `y·r` instead of `y` on `g`). -/
def gen_survey_claimed (part_list : List K) (g g2 : K)
    (vk_ra : VerificationKey K) (y : K) (vk_sa : VerificationKey K) (vid : K)
    (r : ℕ → K) : Except SurveyError (K × List (K × K × K)) :=
  if part_list = [] then
    .error .EmptyParticipantList
  else
    .ok (vid, part_list.enum.map fun p =>
      (p.2, g * (y * r p.1) + (vk_sa.u * vid + vk_sa.v * p.2 + vk_ra.h) * r p.1,
        g2 * r p.1))

/-- Error of the registration mutators (spec §7). -/
inductive RegError where
  | DuplicateIdentifier
deriving DecidableEq

/-- Modelled from the spec: `reg_user` (§4.3), whose code lives in the
`users` module that is not under `src/`.  The freshly sampled identifier is
passed in explicitly; the operation checks it against the current registry
and appends it, signalling `DuplicateIdentifier` on collision. -/
def reg_user (registry : List K) (newId : K) : Except RegError (List K) :=
  if newId ∈ registry then
    .error .DuplicateIdentifier
  else
    .ok (registry ++ [newId])

/-- Sequential `reg_user` calls, one per identifier of the list. -/
def reg_users (registry : List K) (ids : List K) : Except RegError (List K) :=
  match ids with
  | [] => .ok registry
  | id :: rest =>
    match reg_user registry id with
    | .error e => .error e
    | .ok registry' => reg_users registry' rest

/-- Modelled from the spec: `re_identify` (§4.3), whose code lives in the
`users` module that is not under `src/`.  The freshly sampled replacement is
passed in explicitly; the operation removes the user's existing entry,
inserts the replacement, and requires the replacement not to collide with
any existing entry. -/
def re_identify (registry : List K) (oldId newId : K) :
    Except RegError (List K) :=
  if newId ∈ registry then
    .error .DuplicateIdentifier
  else
    .ok (registry.erase oldId ++ [newId])

/-- The resampling loop of `get_generator_pair` in `src/src/main.rs`: with
the random elements presented as an explicit stream `s`, the initial sample
followed by the `while is_zero` resampling loop returns the first non-zero
element of the stream. -/
def sampleNonzero (s : ℕ → K) (h₁ : ∃ i, s i ≠ 0) : K := s (Nat.find h₁)

/-- `get_generator_pair` from `src/src/main.rs`: sample `g ∈ G1` and
`g2 ∈ G2` from the randomness streams, resampling each until non-zero. -/
def get_generator_pair (s1 s2 : ℕ → K) (h₁ : ∃ i, s1 i ≠ 0)
    (h₂ : ∃ i, s2 i ≠ 0) : K × K :=
  (sampleNonzero s1 h₁, sampleNonzero s2 h₂)

/-- Numeric value of one bit (`b as u8` in the source). -/
def bitv (b : Bool) : ℕ := if b then 1 else 0

/-- The loop of `to_bytes` in `src/src/main.rs`, iterating over the MSB-first
bit stream with the running `iter` counter, current accumulator `byte` and
output vector `bytes`; the final `bytes.push(byte)` after the loop is the
base case.  When `iter % 8 == 0` the accumulator is pushed and reset before
the bit is consumed — also at `iter = 0`, when it is still `0`. -/
def to_bytes_go : List Bool → ℕ → ℕ → List ℕ → List ℕ
  | [], _, byte, bytes => bytes ++ [byte]
  | b :: rest, iter, byte, bytes =>
    if iter % 8 = 0 then
      to_bytes_go rest (iter + 1) (0 + bitv b * 2 ^ (7 - iter % 8)) (bytes ++ [byte])
    else
      to_bytes_go rest (iter + 1) (byte + bitv b * 2 ^ (7 - iter % 8)) bytes

/-- `to_bytes` from `src/src/main.rs`: the `U256` input is presented as the
MSB-first bit sequence its `bits()` iterator yields. -/
def to_bytes (bits : List Bool) : List ℕ := to_bytes_go bits 0 0 []

/-- Value of one byte from its 8 bits, most significant first. -/
def byteVal (b0 b1 b2 b3 b4 b5 b6 b7 : Bool) : ℕ :=
  bitv b0 * 128 + bitv b1 * 64 + bitv b2 * 32 + bitv b3 * 16 +
    bitv b4 * 8 + bitv b5 * 4 + bitv b6 * 2 + bitv b7

/-- MSB-order byte decomposition of a bit sequence, 8 bits per byte: the
"data bytes" of the input. -/
def chunksBytes : List Bool → List ℕ
  | b0 :: b1 :: b2 :: b3 :: b4 :: b5 :: b6 :: b7 :: rest =>
    byteVal b0 b1 b2 b3 b4 b5 b6 b7 :: chunksBytes rest
  | _ => []

/-- Lowercase hexadecimal digit, as produced by `hex::encode`: codepoint
arithmetic from the digit value. -/
def hexChar (n : ℕ) : Char :=
  if n < 10 then Char.ofNat (48 + n) else Char.ofNat (87 + n)

/-- `hex::encode` on a byte vector: two lowercase hex digits per byte. -/
def hexOfBytes : List ℕ → List Char
  | [] => []
  | b :: rest => hexChar (b / 16) :: hexChar (b % 16) :: hexOfBytes rest

/-- `to_hex_string` from `src/src/main.rs`: hex encoding of `to_bytes`. -/
def to_hex_string (bits : List Bool) : String :=
  String.mk (hexOfBytes (to_bytes bits))

/-! ## Helper lemmas on `List.enumFrom` and the issued signature list -/

theorem enumFrom_cons_eq {α : Type} (n : ℕ) (a : α) (l : List α) :
    List.enumFrom n (a :: l) = (n, a) :: List.enumFrom (n + 1) l := rfl

/-- Unfolding lemma for `authorized` on a non-empty list. -/
theorem authorized_cons (id vid p s1 s2 : K) (rest : List (K × K × K))
    (vk_sa vk_ra : VerificationKey K) (g2 : K) :
    authorized id vid ((p, s1, s2) :: rest) vk_sa vk_ra g2 =
      if p = id then
        decide (pairing s1 g2 =
          vk_sa.pk + pairing (vk_sa.u * vid + vk_sa.v * id + vk_ra.h) s2)
      else
        authorized id vid rest vk_sa vk_ra g2 := rfl

omit [DecidableEq K] in
/-- The stored identifiers of the issued signature list are exactly the input
identifiers, in order. -/
theorem sigs_map_fst (g g2 y vid : K) (vk_sa vk_ra : VerificationKey K)
    (r : ℕ → K) :
    ∀ (l : List K) (n : ℕ),
      ((List.enumFrom n l).map fun p =>
        ((p.2 : K), g * y + (vk_sa.u * vid + vk_sa.v * p.2 + vk_ra.h) * r p.1,
          g2 * r p.1)).map Prod.fst = l := by
  intro l
  induction l with
  | nil => intro n; rfl
  | cons a rest ih =>
    intro n
    rw [enumFrom_cons_eq]
    simp only [List.map_cons]
    rw [ih (n + 1)]

/-- Every identifier of the input list is accepted by `authorized` on the
issued signature list, provided the SA's `pk` is the pairing commitment
`e(g, g2)^y` to the signing scalar `y` used for issuance. -/
theorem authorized_issued_sigs (g g2 y vid : K) (vk_sa vk_ra : VerificationKey K)
    (hpk : vk_sa.pk = pairing g g2 * y) (r : ℕ → K) :
    ∀ (l : List K) (n : ℕ) (id : K), id ∈ l →
      authorized id vid ((List.enumFrom n l).map fun p =>
          ((p.2 : K), g * y + (vk_sa.u * vid + vk_sa.v * p.2 + vk_ra.h) * r p.1,
            g2 * r p.1)) vk_sa vk_ra g2 = true := by
  intro l
  induction l with
  | nil => intro n id hid; simp at hid
  | cons a rest ih =>
    intro n id hid
    rw [enumFrom_cons_eq]
    simp only [List.map_cons]
    by_cases ha : a = id
    · subst ha
      rw [authorized_cons, if_pos rfl, decide_eq_true_eq, hpk]
      simp only [pairing]
      ring
    · rw [authorized_cons, if_neg ha]
      rcases List.mem_cons.mp hid with h | h
      · exact absurd h.symm ha
      · exact ih (n + 1) id h

/-- Destructuring a successful `gen_survey` call: the returned survey id is
the sampled `vid` and the signature list is the issued one. -/
theorem gen_survey_ok_elim (part_list : List K) (g g2 : K)
    (vk_ra : VerificationKey K) (y : K) (vk_sa : VerificationKey K) (vid : K)
    (r : ℕ → K) (vid' : K) (sigs : List (K × K × K))
    (hok : gen_survey part_list g g2 vk_ra y vk_sa vid r = Except.ok (vid', sigs)) :
    vid' = vid ∧ sigs = part_list.enum.map fun p =>
      ((p.2 : K), g * y + (vk_sa.u * vid + vk_sa.v * p.2 + vk_ra.h) * r p.1,
        g2 * r p.1) := by
  by_cases hp : part_list = []
  · simp only [gen_survey, if_pos hp] at hok
    exact absurd hok (by simp)
  · simp only [gen_survey, if_neg hp, Except.ok.injEq, Prod.mk.injEq] at hok
    exact ⟨hok.1.symm, hok.2.symm⟩

/-! ## Survey issuance: claims C1, C3, C5 -/

/-- Claim C1, amended: for RA and SA key pairs derived from the shared
generators `(g, g2)` and any participant list, if `gen_survey` returns
`(vid, signatures)` then `authorized` accepts every identifier of the input
list; this follows from the signing rule `σ2 = g2^r`,
`σ1 = g^y · (u_SA·vid + v_SA·id + h_RA)^r` (exponent `y`, not `y·r`, on `g`)
and the bilinearity of the pairing. -/
theorem gen_survey_authorized_correct (g g2 y x u v h₁ ur vr hr vid vid' : K)
    (r : ℕ → K) (part_list : List K) (id : K) (sigs : List (K × K × K))
    (hok : gen_survey part_list g g2 (gen_authority g g2 x ur vr hr).2 y
      (gen_authority g g2 y u v h₁).2 vid r = Except.ok (vid', sigs))
    (hid : id ∈ part_list) :
    authorized id vid' sigs (gen_authority g g2 y u v h₁).2
      (gen_authority g g2 x ur vr hr).2 g2 = true := by
  obtain ⟨hv, hs⟩ := gen_survey_ok_elim _ _ _ _ _ _ _ _ _ _ hok
  rw [hv, hs]
  exact authorized_issued_sigs g g2 y vid _ _ rfl r part_list 0 id hid

/-- Witness for C1: a one-participant survey over `ℤ` (exponent embedding),
generators `g = g2 = 1`, secrets `y = 2`, `x = 3`, randomizer `1`. -/
theorem gen_survey_authorized_correct_witness :
    authorized (0 : ℤ) 7 [(0, 10, 1)] (gen_authority (1 : ℤ) 1 2 1 1 1).2
      (gen_authority (1 : ℤ) 1 3 1 1 1).2 1 = true :=
  gen_survey_authorized_correct 1 1 2 3 1 1 1 1 1 1 7 7 (fun _ => 1) [0] 0
    [(0, 10, 1)] (by rfl) (by decide)

/-- Counterexample refuting claim C1 as stated: with key pairs derived from
the shared generators and the signing rule the claim quotes —
`σ2 = g2^r`, `σ1 = g^{y·r} · (u_SA·vid + v_SA·id + h_RA)^r` — the nonzero
randomizer `r = 2` produces a signature list on which `authorized` rejects
the signed identifier `5`: bilinearity gives `e(σ1, g2) = pk_SA^r · e(·, σ2)`,
which differs from the required `pk_SA · e(·, σ2)` whenever `r ≠ 1`. -/
theorem gen_survey_claimed_rule_fails :
    gen_survey_claimed [(5 : ℤ)] 1 1 (gen_authority (1 : ℤ) 1 1 0 0 0).2 1
        (gen_authority (1 : ℤ) 1 1 0 0 0).2 0 (fun _ => 2) =
      Except.ok (0, [(5, 2, 2)]) ∧
    ((2 : ℤ) ≠ 0) ∧
    authorized (5 : ℤ) 0 [(5, 2, 2)] (gen_authority (1 : ℤ) 1 1 0 0 0).2
      (gen_authority (1 : ℤ) 1 1 0 0 0).2 1 = false :=
  ⟨by rfl, by decide, by rfl⟩

/-- Claim C3: `gen_survey` takes no registry argument at all, so issuance
cannot gate on RA registry membership; every successful call returns exactly
one signature tuple `(id, σ1, σ2)` per supplied identifier, in order, and
`authorized` accepts each of them against the returned `vid`. -/
theorem gen_survey_no_registry_gate (g g2 y x u v h₁ ur vr hr vid vid' : K)
    (r : ℕ → K) (part_list : List K) (sigs : List (K × K × K))
    (hok : gen_survey part_list g g2 (gen_authority g g2 x ur vr hr).2 y
      (gen_authority g g2 y u v h₁).2 vid r = Except.ok (vid', sigs)) :
    sigs.length = part_list.length ∧ sigs.map Prod.fst = part_list ∧
      ∀ id ∈ part_list, authorized id vid' sigs (gen_authority g g2 y u v h₁).2
        (gen_authority g g2 x ur vr hr).2 g2 = true := by
  obtain ⟨hv, hs⟩ := gen_survey_ok_elim _ _ _ _ _ _ _ _ _ _ hok
  rw [hv, hs]
  refine ⟨?_, ?_, ?_⟩
  · simp [List.enum]
  · exact sigs_map_fst g g2 y vid _ _ r part_list 0
  · intro id hid
    exact authorized_issued_sigs g g2 y vid _ _ rfl r part_list 0 id hid

/-- Witness for C3: a 6-identifier survey over `ℤ` in which identifier `5`
plays the unregistered participant (the registry is not an input of
`gen_survey`); 6 signatures come back and all 6 identifiers are accepted. -/
theorem gen_survey_no_registry_gate_witness :
    ([((0 : ℤ), (10 : ℤ), (1 : ℤ)), (1, 11, 1), (2, 12, 1), (3, 13, 1),
        (4, 14, 1), (5, 15, 1)].length = [(0 : ℤ), 1, 2, 3, 4, 5].length ∧
      [((0 : ℤ), (10 : ℤ), (1 : ℤ)), (1, 11, 1), (2, 12, 1), (3, 13, 1),
        (4, 14, 1), (5, 15, 1)].map Prod.fst = [(0 : ℤ), 1, 2, 3, 4, 5] ∧
      ∀ id ∈ [(0 : ℤ), 1, 2, 3, 4, 5],
        authorized id 7 [((0 : ℤ), (10 : ℤ), (1 : ℤ)), (1, 11, 1), (2, 12, 1),
          (3, 13, 1), (4, 14, 1), (5, 15, 1)] (gen_authority (1 : ℤ) 1 2 1 1 1).2
          (gen_authority (1 : ℤ) 1 3 1 1 1).2 1 = true) :=
  gen_survey_no_registry_gate 1 1 2 3 1 1 1 1 1 1 7 7 (fun _ => 1)
    [0, 1, 2, 3, 4, 5]
    [(0, 10, 1), (1, 11, 1), (2, 12, 1), (3, 13, 1), (4, 14, 1), (5, 15, 1)]
    (by rfl)

/-- Claim C5: `gen_survey` fails if and only if the participant list is empty,
and the only error it produces is `EmptyParticipantList` (the explicit
randomness stream models an available randomness source, under which
`SamplingExhausted` does not arise). -/
theorem gen_survey_error_iff_empty (part_list : List K) (g g2 : K)
    (vk_ra : VerificationKey K) (y : K) (vk_sa : VerificationKey K) (vid : K)
    (r : ℕ → K) (e : SurveyError) :
    gen_survey part_list g g2 vk_ra y vk_sa vid r = Except.error e ↔
      part_list = [] ∧ e = SurveyError.EmptyParticipantList := by
  by_cases hp : part_list = []
  · have hgen : gen_survey part_list g g2 vk_ra y vk_sa vid r =
        Except.error SurveyError.EmptyParticipantList := by
      simp only [gen_survey, if_pos hp]
    rw [hgen]
    constructor
    · intro h
      exact ⟨hp, (Except.error.inj h).symm⟩
    · rintro ⟨-, h⟩
      rw [h]
  · simp only [gen_survey, if_neg hp]
    constructor
    · intro h
      exact absurd h (by simp)
    · intro h
      exact absurd h.1 hp

/-! ## Scan semantics of `authorized`: claims C2, C4, C8, C9 -/

/-- Claim C4: for every well-formed (possibly empty) signature list in which no
entry's stored identifier equals `id`, `authorized` returns `false` (a normal
negative result, never an error); in particular it returns `false` on the
empty list. -/
theorem authorized_absent_false (id vid : K) (L : List (K × K × K))
    (vk_sa vk_ra : VerificationKey K) (g2 : K)
    (habs : ∀ e ∈ L, e.1 ≠ id) :
    authorized id vid L vk_sa vk_ra g2 = false := by
  induction L with
  | nil => rfl
  | cons e rest ih =>
    obtain ⟨p, s1, s2⟩ := e
    have hp : p ≠ id := habs (p, s1, s2) (List.mem_cons_self _ _)
    simp only [authorized, if_neg hp]
    exact ih fun e he => habs e (List.mem_cons_of_mem _ he)

/-- Witness for C4: on the empty list and on a two-entry list without the
queried identifier, `authorized` evaluates to `false`. -/
theorem authorized_absent_false_witness :
    authorized (1 : ℤ) 0 [(2, 5, 6), (3, 7, 8)] ⟨0, 0, 0, 0⟩ ⟨0, 0, 0, 0⟩ 1 = false ∧
    authorized (1 : ℤ) 0 [] ⟨0, 0, 0, 0⟩ ⟨0, 0, 0, 0⟩ 1 = false :=
  ⟨authorized_absent_false 1 0 [(2, 5, 6), (3, 7, 8)] ⟨0, 0, 0, 0⟩ ⟨0, 0, 0, 0⟩ 1
      (by decide),
    authorized_absent_false 1 0 [] ⟨0, 0, 0, 0⟩ ⟨0, 0, 0, 0⟩ 1 (by simp)⟩

/-- Claim C2: whenever the scan of the signature list finds an entry whose
stored identifier equals `id` (exact field equality, first match), the result
of `authorized` is exactly the truth value of the `Gt` equation
`e(σ1, g2) == pk_SA · e(u_SA·vid + v_SA·id + h_RA, σ2)` on that entry's
`(σ1, σ2)`, with `u`, `v` from `vk_sa` and `h` from `vk_ra`. -/
theorem authorized_found_eq_check (id vid : K) (L : List (K × K × K))
    (vk_sa vk_ra : VerificationKey K) (g2 : K) (pid s1 s2 : K)
    (hfind : L.find? (fun e => decide (e.1 = id)) = some (pid, s1, s2)) :
    authorized id vid L vk_sa vk_ra g2 =
      decide (pairing s1 g2 =
        vk_sa.pk + pairing (vk_sa.u * vid + vk_sa.v * id + vk_ra.h) s2) := by
  induction L with
  | nil => simp at hfind
  | cons e rest ih =>
    obtain ⟨p, a, b⟩ := e
    by_cases hp : p = id
    · rw [List.find?_cons_of_pos _ (by simp [hp])] at hfind
      simp only [Option.some.injEq, Prod.mk.injEq] at hfind
      obtain ⟨h1, h2, h3⟩ := hfind
      subst h2 h3
      simp only [authorized, if_pos hp]
    · rw [List.find?_cons_of_neg _ (by simp [hp])] at hfind
      simp only [authorized, if_neg hp]
      exact ih hfind

/-- Witness for C2: a concrete list whose second entry carries the queried
identifier; `authorized` equals the pairing-equation check on that entry. -/
theorem authorized_found_eq_check_witness :
    authorized (1 : ℤ) 2 [(0, 9, 9), (1, 3, 4)] ⟨1, 1, 1, 1⟩ ⟨1, 1, 1, 1⟩ 5 =
      decide (pairing (3 : ℤ) 5 =
        (VerificationKey.mk (1 : ℤ) 1 1 1).pk +
          pairing ((VerificationKey.mk (1 : ℤ) 1 1 1).u * 2 +
            (VerificationKey.mk (1 : ℤ) 1 1 1).v * 1 +
            (VerificationKey.mk (1 : ℤ) 1 1 1).h) 4) :=
  authorized_found_eq_check 1 2 [(0, 9, 9), (1, 3, 4)] ⟨1, 1, 1, 1⟩ ⟨1, 1, 1, 1⟩ 5
    1 3 4 (by decide)

/-- Claim C9: `authorized` decides using only the earliest entry whose stored
identifier equals `id`: for a list decomposed as `L1 ++ (id, s1, s2) :: L2`
with no match in `L1`, the result is the pairing check on `(s1, s2)` and is
independent of `L2` — later matching entries have no effect. -/
theorem authorized_first_match (id vid s1 s2 : K) (L1 L2 : List (K × K × K))
    (vk_sa vk_ra : VerificationKey K) (g2 : K)
    (hL1 : ∀ e ∈ L1, e.1 ≠ id) :
    authorized id vid (L1 ++ (id, s1, s2) :: L2) vk_sa vk_ra g2 =
      decide (pairing s1 g2 =
        vk_sa.pk + pairing (vk_sa.u * vid + vk_sa.v * id + vk_ra.h) s2) := by
  induction L1 with
  | nil => simp [authorized]
  | cons e rest ih =>
    obtain ⟨p, a, b⟩ := e
    have hp : p ≠ id := hL1 (p, a, b) (List.mem_cons_self _ _)
    simp only [List.cons_append, authorized, if_neg hp]
    exact ih fun e he => hL1 e (List.mem_cons_of_mem _ he)

/-- Witness for C9: a list with two entries for the same identifier; the
result is the check on the earlier entry, the later duplicate is ignored. -/
theorem authorized_first_match_witness :
    authorized (1 : ℤ) 2 [(0, 9, 9), (1, 3, 4), (1, 70, 80)]
        ⟨1, 1, 1, 1⟩ ⟨1, 1, 1, 1⟩ 5 =
      decide (pairing (3 : ℤ) 5 =
        (VerificationKey.mk (1 : ℤ) 1 1 1).pk +
          pairing ((VerificationKey.mk (1 : ℤ) 1 1 1).u * 2 +
            (VerificationKey.mk (1 : ℤ) 1 1 1).v * 1 +
            (VerificationKey.mk (1 : ℤ) 1 1 1).h) 4) :=
  authorized_first_match 1 2 3 4 [(0, 9, 9)] [(1, 70, 80)]
    ⟨1, 1, 1, 1⟩ ⟨1, 1, 1, 1⟩ 5 (by decide)

/-- Claim C8: `authorized` is pure and deterministic — two invocations with
equal arguments return equal boolean results (non-mutation of the signature
list and keys is inherent to the functional embedding). -/
theorem authorized_deterministic (id₁ id₂ vid₁ vid₂ : K)
    (L₁ L₂ : List (K × K × K)) (vka₁ vka₂ vkr₁ vkr₂ : VerificationKey K)
    (g₁ g₂ : K) (h1 : id₁ = id₂) (h2 : vid₁ = vid₂) (h3 : L₁ = L₂)
    (h4 : vka₁ = vka₂) (h5 : vkr₁ = vkr₂) (h6 : g₁ = g₂) :
    authorized id₁ vid₁ L₁ vka₁ vkr₁ g₁ = authorized id₂ vid₂ L₂ vka₂ vkr₂ g₂ := by
  subst h1 h2 h3 h4 h5 h6
  rfl

/-- Witness for C8: determinism at a concrete argument tuple. -/
theorem authorized_deterministic_witness :
    authorized (1 : ℤ) 2 [(1, 3, 4)] ⟨1, 1, 1, 1⟩ ⟨2, 2, 2, 2⟩ 5 =
      authorized (1 : ℤ) 2 [(1, 3, 4)] ⟨1, 1, 1, 1⟩ ⟨2, 2, 2, 2⟩ 5 :=
  authorized_deterministic 1 1 2 2 [(1, 3, 4)] [(1, 3, 4)]
    ⟨1, 1, 1, 1⟩ ⟨1, 1, 1, 1⟩ ⟨2, 2, 2, 2⟩ ⟨2, 2, 2, 2⟩ 5 5
    rfl rfl rfl rfl rfl rfl

/-! ## Registration Authority registry: claim C6 -/

omit [CommRing K] in
/-- Successful sequential registrations preserve distinctness and add one
entry each. -/
theorem reg_users_ok (ids : List K) :
    ∀ (registry r : List K), registry.Nodup →
      reg_users registry ids = Except.ok r →
      r.Nodup ∧ r.length = registry.length + ids.length := by
  induction ids with
  | nil =>
    intro registry r hn h
    simp only [reg_users] at h
    have hr := Except.ok.inj h
    subst hr
    exact ⟨hn, by simp⟩
  | cons id rest ih =>
    intro registry r hn h
    simp only [reg_users] at h
    by_cases hmem : id ∈ registry
    · simp only [reg_user, if_pos hmem] at h
      exact Except.noConfusion h
    · simp only [reg_user, if_neg hmem] at h
      have hn' : (registry ++ [id]).Nodup := by
        simp [List.nodup_append, hn, hmem]
      obtain ⟨h1, h2⟩ := ih (registry ++ [id]) r hn' h
      refine ⟨h1, ?_⟩
      simp at h2 ⊢
      omega

omit [CommRing K] in
/-- Claim C6: registry effects of the RA mutators — every successful
`reg_user` call grows the registry by exactly one entry; sequential
successful `reg_user` calls from the empty registry yield pairwise-distinct
entries, one per call; every successful `re_identify` call leaves the
registry size unchanged, removes the old identifier entirely, and inserts
exactly one occurrence of the new identifier. -/
theorem registry_mutator_effects :
    (∀ (registry : List K) (newId : K) (r : List K),
      reg_user registry newId = Except.ok r →
      r.length = registry.length + 1) ∧
    (∀ (ids r : List K), reg_users ([] : List K) ids = Except.ok r →
      r.Nodup ∧ r.length = ids.length) ∧
    (∀ (registry : List K) (oldId newId : K) (r : List K), registry.Nodup →
      oldId ∈ registry → re_identify registry oldId newId = Except.ok r →
      r.length = registry.length ∧ oldId ∉ r ∧ r.count newId = 1) := by
  refine ⟨?_, ?_, ?_⟩
  · intro registry newId r h
    by_cases hmem : newId ∈ registry
    · simp only [reg_user, if_pos hmem] at h
      exact Except.noConfusion h
    · simp only [reg_user, if_neg hmem] at h
      have hr := Except.ok.inj h
      subst hr
      simp
  · intro ids r h
    have := reg_users_ok ids [] r List.nodup_nil h
    simpa using this
  · intro registry oldId newId r hn hold h
    by_cases hmem : newId ∈ registry
    · simp only [re_identify, if_pos hmem] at h
      exact Except.noConfusion h
    · simp only [re_identify, if_neg hmem] at h
      have hr := Except.ok.inj h
      subst hr
      have hlen := List.length_erase_of_mem hold
      have hle : 1 ≤ registry.length := List.length_pos.mpr
        (List.ne_nil_of_mem hold)
      have hnotold : oldId ∉ registry.erase oldId := fun hc =>
        absurd ((hn.mem_erase_iff.mp hc).1) (by simp)
      have hne : oldId ≠ newId := fun hc => hmem (hc ▸ hold)
      have hnotnew : newId ∉ registry.erase oldId := fun hc =>
        hmem (List.mem_of_mem_erase hc)
      refine ⟨?_, ?_, ?_⟩
      · simp only [List.length_append, List.length_singleton, hlen]
        omega
      · intro hc
        rcases List.mem_append.mp hc with hc | hc
        · exact hnotold hc
        · exact hne (List.mem_singleton.mp hc)
      · rw [List.count_append]
        rw [List.count_eq_zero.mpr hnotnew]
        simp

/-- Witness for C6: concrete registry runs over `ℤ` — registering `2` into
`[1]`, three sequential registrations from the empty registry, and
re-identifying `1` as `3` inside `[1, 2]`. -/
theorem registry_mutator_effects_witness :
    ([(1 : ℤ), 2].length = [(1 : ℤ)].length + 1) ∧
    ([(1 : ℤ), 2, 3].Nodup ∧ [(1 : ℤ), 2, 3].length = [(1 : ℤ), 2, 3].length) ∧
    ([(2 : ℤ), 3].length = [(1 : ℤ), 2].length ∧ (1 : ℤ) ∉ [(2 : ℤ), 3] ∧
      [(2 : ℤ), 3].count 3 = 1) :=
  ⟨(@registry_mutator_effects ℤ _).1 [1] 2 [1, 2] (by rfl),
    (@registry_mutator_effects ℤ _).2.1 [1, 2, 3] [1, 2, 3] (by rfl),
    (@registry_mutator_effects ℤ _).2.2 [1, 2] 1 3 [2, 3] (by decide)
      (by decide) (by rfl)⟩

/-! ## Generator sampling: claim C7 -/

/-- Claim C7: whenever `get_generator_pair` returns `(g, g2)`, both
components are non-identity (non-zero) group elements; the definition
resamples internally (takes the first non-zero stream element) until this
holds. -/
theorem get_generator_pair_nonzero (s1 s2 : ℕ → K) (h₁ : ∃ i, s1 i ≠ 0)
    (h₂ : ∃ i, s2 i ≠ 0) :
    (get_generator_pair s1 s2 h₁ h₂).1 ≠ 0 ∧
    (get_generator_pair s1 s2 h₁ h₂).2 ≠ 0 :=
  ⟨Nat.find_spec h₁, Nat.find_spec h₂⟩

/-- Witness for C7: constant streams of ones. -/
theorem get_generator_pair_nonzero_witness :
    (get_generator_pair (fun _ => (1 : ℤ)) (fun _ => (1 : ℤ))
      ⟨0, one_ne_zero⟩ ⟨0, one_ne_zero⟩).1 ≠ 0 ∧
    (get_generator_pair (fun _ => (1 : ℤ)) (fun _ => (1 : ℤ))
      ⟨0, one_ne_zero⟩ ⟨0, one_ne_zero⟩).2 ≠ 0 :=
  get_generator_pair_nonzero (fun _ => (1 : ℤ)) (fun _ => (1 : ℤ))
    ⟨0, one_ne_zero⟩ ⟨0, one_ne_zero⟩

/-! ## U256 byte and hex encoding: claim C10 -/

/-- Processing one aligned 8-bit block of the `to_bytes` loop: the pending
accumulator is pushed and the block is folded into a fresh byte. -/
theorem to_bytes_go_chunk (b0 b1 b2 b3 b4 b5 b6 b7 : Bool) (rest : List Bool)
    (iter byte : ℕ) (bytes : List ℕ) (hi : iter % 8 = 0) :
    to_bytes_go (b0 :: b1 :: b2 :: b3 :: b4 :: b5 :: b6 :: b7 :: rest) iter byte bytes =
      to_bytes_go rest (iter + 8) (byteVal b0 b1 b2 b3 b4 b5 b6 b7) (bytes ++ [byte]) := by
  have h1 : (iter + 1) % 8 = 1 := by omega
  have h2 : (iter + 1 + 1) % 8 = 2 := by omega
  have h3 : (iter + 1 + 1 + 1) % 8 = 3 := by omega
  have h4 : (iter + 1 + 1 + 1 + 1) % 8 = 4 := by omega
  have h5 : (iter + 1 + 1 + 1 + 1 + 1) % 8 = 5 := by omega
  have h6 : (iter + 1 + 1 + 1 + 1 + 1 + 1) % 8 = 6 := by omega
  have h7 : (iter + 1 + 1 + 1 + 1 + 1 + 1 + 1) % 8 = 7 := by omega
  simp only [to_bytes_go, hi, h1, h2, h3, h4, h5, h6, h7]
  norm_num [byteVal]

/-- The `to_bytes` loop on an 8-aligned bit sequence emits the pending
accumulator followed by the MSB-order data bytes. -/
theorem to_bytes_go_spec : ∀ (m : ℕ) (bits : List Bool) (iter byte : ℕ)
    (bytes : List ℕ), bits.length = 8 * m → iter % 8 = 0 →
    to_bytes_go bits iter byte bytes = bytes ++ byte :: chunksBytes bits := by
  intro m
  induction m with
  | zero =>
    intro bits iter byte bytes hl hi
    have hb : bits = [] := List.length_eq_zero.mp (by omega)
    subst hb
    simp [to_bytes_go, chunksBytes]
  | succ m ih =>
    intro bits iter byte bytes hl hi
    rcases bits with _ | ⟨b0, bits⟩
    · simp at hl
    rcases bits with _ | ⟨b1, bits⟩
    · simp at hl; omega
    rcases bits with _ | ⟨b2, bits⟩
    · simp at hl; omega
    rcases bits with _ | ⟨b3, bits⟩
    · simp at hl; omega
    rcases bits with _ | ⟨b4, bits⟩
    · simp at hl; omega
    rcases bits with _ | ⟨b5, bits⟩
    · simp at hl; omega
    rcases bits with _ | ⟨b6, bits⟩
    · simp at hl; omega
    rcases bits with _ | ⟨b7, bits⟩
    · simp at hl; omega
    rw [to_bytes_go_chunk b0 b1 b2 b3 b4 b5 b6 b7 bits iter byte bytes hi]
    rw [ih bits (iter + 8) (byteVal b0 b1 b2 b3 b4 b5 b6 b7) (bytes ++ [byte])
      (by simp at hl; omega) (by omega)]
    simp [chunksBytes]

/-- An 8-aligned bit sequence decomposes into one data byte per 8 bits. -/
theorem chunksBytes_length : ∀ (m : ℕ) (bits : List Bool),
    bits.length = 8 * m → (chunksBytes bits).length = m := by
  intro m
  induction m with
  | zero =>
    intro bits hl
    have hb : bits = [] := List.length_eq_zero.mp (by omega)
    subst hb
    rfl
  | succ m ih =>
    intro bits hl
    rcases bits with _ | ⟨b0, bits⟩
    · simp at hl
    rcases bits with _ | ⟨b1, bits⟩
    · simp at hl; omega
    rcases bits with _ | ⟨b2, bits⟩
    · simp at hl; omega
    rcases bits with _ | ⟨b3, bits⟩
    · simp at hl; omega
    rcases bits with _ | ⟨b4, bits⟩
    · simp at hl; omega
    rcases bits with _ | ⟨b5, bits⟩
    · simp at hl; omega
    rcases bits with _ | ⟨b6, bits⟩
    · simp at hl; omega
    rcases bits with _ | ⟨b7, bits⟩
    · simp at hl; omega
    simp only [chunksBytes, List.length_cons]
    rw [ih bits (by simp at hl; omega)]

/-- `hex::encode` produces two characters per byte. -/
theorem hexOfBytes_length : ∀ (l : List ℕ), (hexOfBytes l).length = 2 * l.length := by
  intro l
  induction l with
  | nil => rfl
  | cons b rest ih =>
    simp only [hexOfBytes, List.length_cons, ih]
    omega

/-- Claim C10: `to_bytes` pushes its still-zero accumulator before consuming
the first bit, so every input whose bit iterator yields 256 bits produces a
33-byte vector — a leading `0` followed by the 32 data bytes in MSB order
(`chunksBytes`); consequently `to_hex_string` returns a 66-character string
whose first two characters are `"00"`. -/
theorem to_bytes_leading_zero (bits : List Bool) (hl : bits.length = 256) :
    to_bytes bits = 0 :: chunksBytes bits ∧
    (to_bytes bits).length = 33 ∧
    (to_hex_string bits).length = 66 ∧
    (to_hex_string bits).data.take 2 = ['0', '0'] := by
  have hb : to_bytes bits = 0 :: chunksBytes bits := by
    have := to_bytes_go_spec 32 bits 0 0 [] (by omega) (by omega)
    simpa [to_bytes] using this
  have hcl : (chunksBytes bits).length = 32 := chunksBytes_length 32 bits (by omega)
  refine ⟨hb, ?_, ?_, ?_⟩
  · rw [hb]
    simp [hcl]
  · show (String.mk (hexOfBytes (to_bytes bits))).length = 66
    rw [hb]
    simp [String.length, hexOfBytes_length, hcl]
  · show (String.mk (hexOfBytes (to_bytes bits))).data.take 2 = ['0', '0']
    rw [hb]
    have hc : hexChar 0 = '0' := by decide
    simp [hexOfBytes, hc]

/-- Witness for C10: the all-zero 256-bit input. -/
theorem to_bytes_leading_zero_witness :
    to_bytes (List.replicate 256 false) = 0 :: chunksBytes (List.replicate 256 false) ∧
    (to_bytes (List.replicate 256 false)).length = 33 ∧
    (to_hex_string (List.replicate 256 false)).length = 66 ∧
    (to_hex_string (List.replicate 256 false)).data.take 2 = ['0', '0'] :=
  to_bytes_leading_zero (List.replicate 256 false) (List.length_replicate 256 false)

end AnonSurvey
